import Mathlib

/-!
Verification of the Optimal Slot Recommendation Engine of the meeting
assistant (source: `meeting_assistant_mcp/services/ai/optimal_time_service.py`
together with the calendar collaborator
`meeting_assistant_mcp/services/core/calendar_service.py` and the data model
in `meeting_assistant_mcp/models/`).

Modelling conventions (shallow embedding):

* Instants are UTC minutes since an epoch (`Int`).  A calendar date
  (`datetime.date()`) is the floor division of an instant by 1440
  (`Int.fdiv`, matching Python's floor semantics); `weekday d = (d + 3) % 7`
  with Monday = 0, since day 0 of the Unix epoch is a Thursday.
* Clock times (`datetime.time`) are minutes after local midnight; the
  `.time()` of an instant is `% 1440` (Lean's `Int.emod`, like Python's `%`,
  is non-negative for a positive modulus).
* A `pytz` timezone is abstracted to the two conversions the engine performs
  on it: `fromLocal` models `tz.localize(naive_local).astimezone(pytz.UTC)`
  and `toLocal` models `utc_instant.astimezone(tz)` read as local wall
  minutes.  Daylight-saving rules live inside these functions; the engine
  never inspects them further.
* Python floats are modelled as exact rationals (`ℚ`); every score constant
  in the source is a decimal with an exact small representation, and the
  specification states score identities "within floating rounding
  tolerance", which the rational model realises exactly.
* User ids are abstracted to `Nat`; the free-text `meeting_free_blocks` are
  `List Char`, and Python's substring test `"Friday" in block` is
  `List.isInfixOf`.
* The `async` collaborators are modelled as pure data: the user store is a
  function `Nat → Option User` (`UserService.get_user`), and the meetings
  file read is an `Except String (List Meeting)` whose `error` case covers
  both an unreadable store and a malformed record (the `try/except` in
  `load_meetings`).  The in-process cache of `load_meetings` means every
  query inside one `find_optimal_slots` call sees the single parsed list,
  so the engine functions take that list `ms` directly.
* The presentation-only fields of `OptimalSlot` (`explanation`,
  `participant_impact`, `reasoning`) are string/formatting output consumed
  by no claim and are omitted from the embedded record; `rank`, the slot and
  the five numeric scores are kept exactly.
-/

namespace MeetingAssistant

/-- Abstraction of a `pytz` timezone: the two conversions the engine uses. -/
structure Timezone where
  toLocal : Int → Int
  fromLocal : Int → Int

/-- `models/user.py`: `ProductivityPeriod`. -/
inductive ProductivityPeriod where
  | early_morning
  | morning
  | afternoon
  | late_afternoon
  | evening
deriving DecidableEq

/-- `models/user.py`: `UserPreferences` (the fields the engine reads). -/
structure UserPreferences where
  time_zone : Timezone
  working_hours_start : Int
  working_hours_end : Int
  lunch_break_start : Option Int
  lunch_break_end : Option Int
  productive_periods : List ProductivityPeriod
  no_meetings_before : Option Int
  no_meetings_after : Option Int
  meeting_free_blocks : List (List Char)

/-- `models/user.py`: `User` (the fields the engine reads). -/
structure User where
  user_id : Nat
  preferences : UserPreferences

/-- `models/meeting.py`: `Meeting` (the fields the engine reads). -/
structure Meeting where
  participants : List Nat
  start_time : Int
  end_time : Int
deriving DecidableEq

/-- `models/scheduling.py`: `TimeSlot`. -/
structure TimeSlot where
  start_time : Int
  end_time : Int
  duration_minutes : Int
  available_participants : List Nat
  unavailable_participants : List Nat
deriving DecidableEq

/-- `optimal_time_service.py`: the `ScoreComponents` dataclass. -/
structure ScoreComponents where
  productivity_score : ℚ
  convenience_score : ℚ
  conflict_risk_score : ℚ
  preference_score : ℚ

/-- `ScoreComponents.overall_score`: the fixed weighted combination. -/
def ScoreComponents.overall_score (c : ScoreComponents) : ℚ :=
  c.productivity_score * 0.4 +
    c.convenience_score * 0.3 +
    c.conflict_risk_score * 0.2 +
    c.preference_score * 0.1

/-- `models/scheduling.py`: `OptimalSlot` (presentation-only text fields
omitted, see the module docstring). -/
structure OptimalSlot where
  rank : Nat
  time_slot : TimeSlot
  overall_score : ℚ
  productivity_score : ℚ
  convenience_score : ℚ
  conflict_risk_score : ℚ
  preference_score : ℚ
deriving DecidableEq

/-- The calendar collaborator's backing store: one parse attempt of
`data/meetings.json`. -/
structure CalendarEnv where
  readResult : Except String (List Meeting)

/-- `calendar_service.py`: `load_meetings`.  On a successful read it returns
the parsed list; on any failure (missing file, storage error, malformed
record) the `try/except` logs and substitutes the empty list. -/
def load_meetings (c : CalendarEnv) : List Meeting :=
  match c.readResult with
  | .ok ms => ms
  | .error _ => []

/-- Ordering of `user_meetings.sort(key=lambda m: m.start_time)`. -/
def meetingStartLE (a b : Meeting) : Prop :=
  a.start_time ≤ b.start_time

instance : DecidableRel meetingStartLE :=
  fun a b => Int.decLe a.start_time b.start_time

instance : IsTotal Meeting meetingStartLE :=
  ⟨fun a b => Int.le_total a.start_time b.start_time⟩

instance : IsTrans Meeting meetingStartLE :=
  ⟨fun _ _ _ h h' => Int.le_trans h h'⟩

/-- `calendar_service.py`: `get_user_meetings` restricted to the loaded list
`ms` (the cache makes all queries of one call see the same list).  A meeting
is kept when the user participates and the meeting is not entirely before
`startTime` nor entirely after `endTime`; the result is sorted by start
time.  Python's `list.sort` is a stable sort, and a stable sort under a total
transitive relation is a unique list, so the structurally recursive stable
`List.insertionSort` models it exactly. -/
def get_user_meetings (ms : List Meeting) (userId : Nat)
    (startTime endTime : Int) : List Meeting :=
  (ms.filter fun m =>
      m.participants.contains userId &&
        !(decide (m.end_time ≤ startTime)) &&
        !(decide (m.start_time ≥ endTime))).insertionSort meetingStartLE

/-- `calendar_service.py`: `get_nearby_meetings`. -/
def get_nearby_meetings (ms : List Meeting) (userId : Nat)
    (targetTime bufferMinutes : Int) : List Meeting :=
  get_user_meetings ms userId (targetTime - bufferMinutes)
    (targetTime + bufferMinutes)

/-- Local wall-clock minutes-of-day of a UTC instant for a timezone
(`instant.astimezone(tz).time()`). -/
def localClock (tz : Timezone) (t : Int) : Int :=
  tz.toLocal t % 1440

/-- Local hour of a UTC instant (`.time().hour`). -/
def localHour (tz : Timezone) (t : Int) : Int :=
  localClock tz t / 60

/-- Python's `weekday()` on a calendar date (Monday = 0). -/
def weekday (d : Int) : Int :=
  (d + 3) % 7

/-- The UTC instant of a user's working-hours start on a date
(`user_tz.localize(datetime.combine(date, start)).astimezone(pytz.UTC)`). -/
def workingStartUtc (u : User) (date : Int) : Int :=
  u.preferences.time_zone.fromLocal (date * 1440 + u.preferences.working_hours_start)

/-- The UTC instant of a user's working-hours end on a date. -/
def workingEndUtc (u : User) (date : Int) : Int :=
  u.preferences.time_zone.fromLocal (date * 1440 + u.preferences.working_hours_end)

/-- One iteration of the working-hours intersection loop in
`_find_daily_availability`: raise the common start to the user's start, lower
the common end to the user's end. -/
def commonWindowStep (date : Int) (acc : Option Int × Option Int) (u : User) :
    Option Int × Option Int :=
  let s := workingStartUtc u date
  let e := workingEndUtc u date
  (match acc.1 with
   | none => some s
   | some c => if s > c then some s else some c,
   match acc.2 with
   | none => some e
   | some c => if e < c then some e else some c)

/-- The `common_start`/`common_end` pair computed by
`_find_daily_availability` (both `None` when there are no users). -/
def commonWindow (users : List User) (date : Int) : Option Int × Option Int :=
  users.foldl (commonWindowStep date) (none, none)

/-- Body of the per-user loop of `_check_availability_at_time`: the user has
no booked meeting overlapping the slot, and no conflict with a lunch break.
The lunch check runs only when both `lunch_break_start` and
`lunch_break_end` are configured. -/
def user_available_at (ms : List Meeting) (u : User) (startTime dur : Int) : Bool :=
  let endTime := startTime + dur
  (get_user_meetings ms u.user_id startTime endTime).isEmpty &&
    (match u.preferences.lunch_break_start, u.preferences.lunch_break_end with
     | some lunchStart, some lunchEnd =>
       let localStart := localClock u.preferences.time_zone startTime
       let localEnd := localClock u.preferences.time_zone endTime
       !(decide (localStart < lunchEnd) && decide (localEnd > lunchStart))
     | _, _ => true)

/-- `_check_availability_at_time`. -/
def check_availability_at_time (ms : List Meeting) (users : List User)
    (startTime dur : Int) : Bool :=
  users.all fun u => user_available_at ms u startTime dur

/-- The 30-minute stepping loop of `_find_daily_availability`, structurally
recursive on an upper bound for the remaining iteration count (so that the
kernel can evaluate it); `candidate_starts_unfold` below proves it satisfies
exactly the `while current + duration <= common_end` recurrence of the
source. -/
def stepLoop (commonEnd dur : Int) : Nat → Int → List Int
  | 0, _ => []
  | fuel + 1, current =>
    if current + dur ≤ commonEnd then
      current :: stepLoop commonEnd dur fuel (current + 30)
    else []

/-- The candidate start instants `current, current+30, …` with
`step + duration ≤ common_end` (the 30-minute stepping loop of
`_find_daily_availability`). -/
def candidate_starts (current commonEnd dur : Int) : List Int :=
  stepLoop commonEnd dur ((commonEnd - dur - current).toNat / 30 + 1) current

/-- The `TimeSlot` built for a surviving candidate start. -/
def slotFor (users : List User) (t dur : Int) : TimeSlot :=
  { start_time := t
    end_time := t + dur
    duration_minutes := dur
    available_participants := users.map User.user_id
    unavailable_participants := [] }

/-- `_find_daily_availability`: intersect working hours, then walk the
intersection in 30-minute steps keeping the starts at which every user is
available. -/
def find_daily_availability (ms : List Meeting) (users : List User)
    (date dur : Int) : List TimeSlot :=
  match commonWindow users date with
  | (some commonStart, some commonEnd) =>
    if commonEnd ≤ commonStart then []
    else
      ((candidate_starts commonStart commonEnd dur).filter fun t =>
          check_availability_at_time ms users t dur).map
        fun t => slotFor users t dur
  | _ => []

/-- The date loop of `_find_availability_windows`, structurally recursive on
the exact number of remaining days; `windowsFromDay_unfold` below proves the
source's `while current_date <= end_date` recurrence. -/
def dayLoop (ms : List Meeting) (users : List User) (dur : Int) :
    Nat → Int → List TimeSlot
  | 0, _ => []
  | fuel + 1, d =>
    (if weekday d ≥ 5 then [] else find_daily_availability ms users d dur) ++
      dayLoop ms users dur fuel (d + 1)

/-- The date loop of `_find_availability_windows`: iterate days `d … endDay`
inclusive, skipping Saturday (5) and Sunday (6). -/
def windowsFromDay (ms : List Meeting) (users : List User) (dur : Int)
    (d endDay : Int) : List TimeSlot :=
  dayLoop ms users dur ((endDay + 1 - d).toNat) d

/-- `_find_availability_windows`: the day iteration runs from
`start_date.date()` to `end_date.date()`. -/
def find_availability_windows (ms : List Meeting) (users : List User)
    (dur : Int) (startDate endDate : Int) : List TimeSlot :=
  windowsFromDay ms users dur (startDate.fdiv 1440) (endDate.fdiv 1440)

/-- One `for period in productive_periods` iteration of
`_calculate_productivity_score` (the `if/elif` chain). -/
def productivityStep (hour : Int) (score : ℚ) (p : ProductivityPeriod) : ℚ :=
  match p with
  | .early_morning => if 6 ≤ hour ∧ hour < 9 then 9.0 else score
  | .morning => if 9 ≤ hour ∧ hour < 12 then 9.5 else score
  | .afternoon => if 12 ≤ hour ∧ hour < 15 then 8.5 else score
  | .late_afternoon => if 15 ≤ hour ∧ hour < 18 then 8.0 else score
  | .evening => if 18 ≤ hour ∧ hour < 21 then 7.0 else score

/-- Per-user body of `_calculate_productivity_score`: base 5.0, replaced by
the tier of each matching declared productive period (last match wins). -/
def productivityUserScore (u : User) (t : Int) : ℚ :=
  u.preferences.productive_periods.foldl
    (productivityStep (localHour u.preferences.time_zone t)) 5.0

/-- `_calculate_productivity_score`. -/
def calculate_productivity_score (slot : TimeSlot) (users : List User) : ℚ :=
  min ((users.map fun u => productivityUserScore u slot.start_time).sum /
      (users.length : ℚ))
    10.0

/-- Per-user body of `_calculate_convenience_score`: base 8.0, early/late
penalties on the local start hour, then the `no_meetings_before` and
`no_meetings_after` penalties (both compare the local start time), floored
at 1.0. -/
def convenienceUserScore (u : User) (t : Int) : ℚ :=
  let localTime := localClock u.preferences.time_zone t
  let hour := localHour u.preferences.time_zone t
  let base : ℚ := 8.0
  let afterHour :=
    if hour < 8 then base - ((8 - hour : Int) : ℚ) * 1.5
    else if hour > 17 then base - ((hour - 17 : Int) : ℚ) * 1.0
    else base
  let afterBefore :=
    match u.preferences.no_meetings_before with
    | some nmb => if localTime < nmb then afterHour - 3.0 else afterHour
    | none => afterHour
  let afterAfter :=
    match u.preferences.no_meetings_after with
    | some nma => if localTime > nma then afterBefore - 3.0 else afterBefore
    | none => afterBefore
  max afterAfter 1.0

/-- `_calculate_convenience_score`. -/
def calculate_convenience_score (slot : TimeSlot) (users : List User) : ℚ :=
  min ((users.map fun u => convenienceUserScore u slot.start_time).sum /
      (users.length : ℚ))
    10.0

/-- One `for user in users` iteration of `_calculate_conflict_risk_score`. -/
def conflictStep (ms : List Meeting) (slotStart : Int) (score : ℚ)
    (u : User) : ℚ :=
  let nearby := get_nearby_meetings ms u.user_id slotStart 30
  if nearby.isEmpty then score else score - (nearby.length : ℚ) * 0.5

/-- `_calculate_conflict_risk_score`: base 8.0, minus 0.5 per nearby meeting
of each user (30-minute buffer), floored at 1.0. -/
def calculate_conflict_risk_score (ms : List Meeting) (slot : TimeSlot)
    (users : List User) : ℚ :=
  max (users.foldl (conflictStep ms slot.start_time) 8.0) 1.0

/-- The characters of the literal `"Friday"`. -/
def fridayChars : List Char :=
  ['F', 'r', 'i', 'd', 'a', 'y']

/-- Python's substring test `"Friday" in block`. -/
def containsFriday (block : List Char) : Bool :=
  match block with
  | [] => fridayChars.isEmpty
  | _ :: rest => fridayChars.isPrefixOf block || containsFriday rest

/-- One `for block in meeting_free_blocks` iteration of
`_calculate_preference_score`: the penalty fires when the block mentions
`"Friday"` and the slot's UTC start falls on a Friday
(`start_time.weekday() == 4`). -/
def preferenceStep (t : Int) (score : ℚ) (block : List Char) : ℚ :=
  if containsFriday block && (weekday (t.fdiv 1440) == 4) then score - 2.0
  else score

/-- Per-user body of `_calculate_preference_score`: base 8.0, minus 2.0 for
each meeting-free block containing `"Friday"` when the slot's UTC start falls
on a Friday. -/
def preferenceUserScore (u : User) (t : Int) : ℚ :=
  u.preferences.meeting_free_blocks.foldl (preferenceStep t) 8.0

/-- `_calculate_preference_score`. -/
def calculate_preference_score (slot : TimeSlot) (users : List User) : ℚ :=
  min ((users.map fun u => preferenceUserScore u slot.start_time).sum /
      (users.length : ℚ))
    10.0

/-- `_calculate_slot_score`. -/
def calculate_slot_score (ms : List Meeting) (slot : TimeSlot)
    (users : List User) : ScoreComponents :=
  { productivity_score := calculate_productivity_score slot users
    convenience_score := calculate_convenience_score slot users
    conflict_risk_score := calculate_conflict_risk_score ms slot users
    preference_score := calculate_preference_score slot users }

/-- The `OptimalSlot` built in the scoring loop of `find_optimal_slots`
(rank 0, set after sorting). -/
def scoreSlot (ms : List Meeting) (users : List User) (w : TimeSlot) :
    OptimalSlot :=
  let c := calculate_slot_score ms w users
  { rank := 0
    time_slot := w
    overall_score := c.overall_score
    productivity_score := c.productivity_score
    convenience_score := c.convenience_score
    conflict_risk_score := c.conflict_risk_score
    preference_score := c.preference_score }

/-- The `scored_slots` list of `find_optimal_slots`, in discovery
(chronological) order. -/
def scoredSlots (ms : List Meeting) (users : List User) (dur : Int)
    (startDate endDate : Int) : List OptimalSlot :=
  (find_availability_windows ms users dur startDate endDate).map
    (scoreSlot ms users)

/-- The comparison of `scored_slots.sort(key=…overall_score, reverse=True)`:
a stable sort under this total transitive relation is exactly Python's
stable descending sort. -/
def scoreDescending (a b : OptimalSlot) : Prop :=
  b.overall_score ≤ a.overall_score

instance : DecidableRel scoreDescending :=
  fun a b => inferInstanceAs (Decidable (b.overall_score ≤ a.overall_score))

instance : IsTotal OptimalSlot scoreDescending :=
  ⟨fun a b => le_total b.overall_score a.overall_score⟩

instance : IsTrans OptimalSlot scoreDescending :=
  ⟨fun _ _ _ h h' => le_trans h' h⟩

/-- The scored slots after the descending stable sort. -/
def sortedSlots (ms : List Meeting) (users : List User) (dur : Int)
    (startDate endDate : Int) : List OptimalSlot :=
  (scoredSlots ms users dur startDate endDate).insertionSort scoreDescending

/-- The sorted slots after the rank-assignment loop (`slot.rank = i + 1`). -/
def rankedSlots (ms : List Meeting) (users : List User) (dur : Int)
    (startDate endDate : Int) : List OptimalSlot :=
  (sortedSlots ms users dur startDate endDate).enum.map
    fun p => { p.2 with rank := p.1 + 1 }

/-- The engine's collaborators for one call: the user-profile store and the
calendar store. -/
structure Env where
  users : Nat → Option User
  cal : CalendarEnv

/-- `_get_participant_data`: resolve each id, dropping (with a warning) the
ones the store does not know. -/
def get_participant_data (env : Env) (participantIds : List Nat) : List User :=
  participantIds.filterMap env.users

/-- `find_optimal_slots`.  The `preferences` argument is accepted and never
read, as in the source.  Raising `ValueError` is modelled as
`Except.error`. -/
def find_optimal_slots (env : Env) (participants : List Nat) (dur : Int)
    (startDate endDate : Int) (preferences : Option (List (Nat × Int))) :
    Except String (List OptimalSlot) :=
  let users := get_participant_data env participants
  if users.isEmpty then
    Except.error "No valid participants found"
  else
    let ms := load_meetings env.cal
    let windows := find_availability_windows ms users dur startDate endDate
    if windows.isEmpty then Except.ok []
    else Except.ok ((rankedSlots ms users dur startDate endDate).take 5)

/-- The list a caller receives from a non-failing `find_optimal_slots` call
(empty when the call failed). -/
def resultSlots (env : Env) (participants : List Nat) (dur : Int)
    (startDate endDate : Int) (preferences : Option (List (Nat × Int))) :
    List OptimalSlot :=
  (find_optimal_slots env participants dur startDate endDate preferences).toOption.getD []

/-! Concrete environments used to witness the theorems below.  `utcTz` is the
identity timezone (UTC); `baseUser` works 09:00-17:00 UTC with no lunch break,
no declared productive periods and no preference flags.  Day 4 of the epoch
(1970-01-05) is a Monday; day 1 (1970-01-02) is a Friday. -/

/-- The UTC timezone: both conversions are the identity. -/
def utcTz : Timezone :=
  ⟨fun t => t, fun t => t⟩

/-- Preferences of a plain 09:00-17:00 UTC worker. -/
def basePrefs : UserPreferences :=
  { time_zone := utcTz
    working_hours_start := 540
    working_hours_end := 1020
    lunch_break_start := none
    lunch_break_end := none
    productive_periods := []
    no_meetings_before := none
    no_meetings_after := none
    meeting_free_blocks := [] }

/-- A plain 09:00-17:00 UTC worker with id 0. -/
def baseUser : User :=
  ⟨0, basePrefs⟩

/-- A store resolving only id 0, with an empty meetings file. -/
def baseEnv : Env :=
  ⟨fun i => if i = 0 then some baseUser else none, ⟨.ok []⟩⟩

/-- The single slot recommended to `baseEnv` for a 480-minute meeting on
1970-01-05: the full 09:00-17:00 UTC window, base scores throughout. -/
def baseSlot : OptimalSlot :=
  { rank := 1
    time_slot :=
      { start_time := 6300
        end_time := 6780
        duration_minutes := 480
        available_participants := [0]
        unavailable_participants := [] }
    overall_score := 6.8
    productivity_score := 5
    convenience_score := 8
    conflict_risk_score := 8
    preference_score := 8 }

/-- A worker who dislikes meetings after 17:00 (`no_meetings_after`
configured). -/
def lateCutoffUser : User :=
  ⟨0, { basePrefs with no_meetings_after := some 1020 }⟩

/-- A worker with four meeting-free blocks that all mention `"Friday"`. -/
def fridayBlocksUser : User :=
  ⟨0, { basePrefs with
    meeting_free_blocks := [fridayChars, fridayChars, fridayChars, fridayChars] }⟩

/-- A store resolving only id 0 to `fridayBlocksUser`, empty meetings file. -/
def fridayEnv : Env :=
  ⟨fun i => if i = 0 then some fridayBlocksUser else none, ⟨.ok []⟩⟩

/-- The calendar store whose read fails (storage unavailable or malformed
record). -/
def failingCal : CalendarEnv :=
  ⟨.error "storage unavailable"⟩

/-- The environment of `baseEnv` but with a failing calendar read. -/
def failingReadEnv : Env :=
  ⟨fun i => if i = 0 then some baseUser else none, failingCal⟩

/-- A worker with only `lunch_break_start` configured (no
`lunch_break_end`). -/
def halfLunchUser : User :=
  ⟨0, { basePrefs with lunch_break_start := some 720 }⟩

/-- A 60-minute slot at 16:30-17:30 UTC on 1970-01-01. -/
def lateSlot : TimeSlot :=
  { start_time := 990
    end_time := 1050
    duration_minutes := 60
    available_participants := [0]
    unavailable_participants := [] }

/-! Definitions written from the specification text, used to compare the
source behaviour against the claimed scoring rules (refinement targets, not
translations of the source). -/

/-- The per-user convenience score exactly as the claim states it: 8.0 base,
1.5 per hour before 8:00, 1.0 per hour after 17:00, 3.0 when the local
start precedes `no_meetings_before`, 3.0 when the local END of the slot
follows `no_meetings_after`, floored at 1.0.  Written from the claim text;
compare `convenienceUserScore`, which is translated from the source. -/
def convenienceUserScoreClaimed (u : User) (startUtc endUtc : Int) : ℚ :=
  let localStart := localClock u.preferences.time_zone startUtc
  let localEnd := localClock u.preferences.time_zone endUtc
  let hour := localStart / 60
  let earlyPenalty : ℚ := if hour < 8 then ((8 - hour : Int) : ℚ) * 1.5 else 0
  let latePenalty : ℚ := if hour > 17 then ((hour - 17 : Int) : ℚ) * 1.0 else 0
  let beforePenalty : ℚ :=
    match u.preferences.no_meetings_before with
    | some nmb => if localStart < nmb then 3.0 else 0
    | none => 0
  let afterPenalty : ℚ :=
    match u.preferences.no_meetings_after with
    | some nma => if localEnd > nma then 3.0 else 0
    | none => 0
  max (8.0 - earlyPenalty - latePenalty - beforePenalty - afterPenalty) 1.0

/-- The amended per-user convenience score: as claimed, except that the
`no_meetings_after` penalty compares the local START of the slot (what the
source does), not the local end. -/
def convenienceUserScoreAmended (u : User) (startUtc : Int) : ℚ :=
  let localStart := localClock u.preferences.time_zone startUtc
  let hour := localStart / 60
  let earlyPenalty : ℚ := if hour < 8 then ((8 - hour : Int) : ℚ) * 1.5 else 0
  let latePenalty : ℚ := if hour > 17 then ((hour - 17 : Int) : ℚ) * 1.0 else 0
  let beforePenalty : ℚ :=
    match u.preferences.no_meetings_before with
    | some nmb => if localStart < nmb then 3.0 else 0
    | none => 0
  let afterPenalty : ℚ :=
    match u.preferences.no_meetings_after with
    | some nma => if localStart > nma then 3.0 else 0
    | none => 0
  max (8.0 - earlyPenalty - latePenalty - beforePenalty - afterPenalty) 1.0

/-! Structural lemmas about the embedded engine. -/

/-- The stepping loop satisfies the source's `while` recurrence. -/
theorem candidate_starts_unfold (current commonEnd dur : Int) :
    candidate_starts current commonEnd dur =
      if current + dur ≤ commonEnd then
        current :: candidate_starts (current + 30) commonEnd dur
      else [] := by
  unfold candidate_starts
  by_cases h : current + dur ≤ commonEnd
  · by_cases h30 : current + 30 + dur ≤ commonEnd
    · have e : (commonEnd - dur - current).toNat / 30 + 1 =
          ((commonEnd - dur - (current + 30)).toNat / 30 + 1) + 1 := by omega
      rw [e]
      simp only [stepLoop, if_pos h]
    · have e : (commonEnd - dur - current).toNat / 30 + 1 = 0 + 1 := by omega
      have e' : (commonEnd - dur - (current + 30)).toNat / 30 + 1 = 0 + 1 := by
        omega
      rw [e, e']
      simp only [stepLoop, if_pos h, if_neg h30]
  · have e : (commonEnd - dur - current).toNat / 30 + 1 = 0 + 1 := by omega
    rw [e]
    simp only [stepLoop, if_neg h]

/-- The date loop satisfies the source's `while` recurrence. -/
theorem windowsFromDay_unfold (ms : List Meeting) (users : List User)
    (dur : Int) (d endDay : Int) :
    windowsFromDay ms users dur d endDay =
      if d ≤ endDay then
        (if weekday d ≥ 5 then [] else find_daily_availability ms users d dur) ++
          windowsFromDay ms users dur (d + 1) endDay
      else [] := by
  unfold windowsFromDay
  by_cases h : d ≤ endDay
  · have e : (endDay + 1 - d).toNat = (endDay + 1 - (d + 1)).toNat + 1 := by
      omega
    rw [e]
    simp only [dayLoop, if_pos h]
  · have e : (endDay + 1 - d).toNat = 0 := by omega
    rw [e]
    simp only [dayLoop, if_neg h]

theorem mem_stepLoop {commonEnd dur : Int} :
    ∀ {fuel : Nat} {current t : Int},
      t ∈ stepLoop commonEnd dur fuel current →
      current ≤ t ∧ t + dur ≤ commonEnd := by
  intro fuel
  induction fuel with
  | zero =>
    intro current t h
    simp [stepLoop] at h
  | succ n ih =>
    intro current t h
    rw [stepLoop] at h
    split at h
    · rcases List.mem_cons.mp h with rfl | h'
      · exact ⟨le_refl _, by omega⟩
      · have := ih h'
        exact ⟨by omega, this.2⟩
    · simp at h

/-- Every candidate start lies inside the intersection window, with room for
the whole duration. -/
theorem mem_candidate_starts {current commonEnd dur t : Int}
    (h : t ∈ candidate_starts current commonEnd dur) :
    current ≤ t ∧ t + dur ≤ commonEnd :=
  mem_stepLoop h

/-- Decomposition of membership in a day's availability list. -/
theorem mem_find_daily_availability {ms : List Meeting} {users : List User}
    {date dur : Int} {s : TimeSlot}
    (h : s ∈ find_daily_availability ms users date dur) :
    ∃ cs ce, commonWindow users date = (some cs, some ce) ∧ cs < ce ∧
      ∃ t, t ∈ candidate_starts cs ce dur ∧
        check_availability_at_time ms users t dur = true ∧
        s = slotFor users t dur := by
  unfold find_daily_availability at h
  rcases hw : commonWindow users date with ⟨os, oe⟩
  rw [hw] at h
  match os, oe with
  | none, none => simp at h
  | none, some _ => simp at h
  | some _, none => simp at h
  | some cs, some ce =>
    simp only at h
    split at h
    · simp at h
    · rcases List.mem_map.mp h with ⟨t, ht, rfl⟩
      rcases List.mem_filter.mp ht with ⟨ht', hav⟩
      exact ⟨cs, ce, rfl, by omega, t, ht', hav, rfl⟩

theorem mem_dayLoop {ms : List Meeting} {users : List User} {dur : Int} :
    ∀ {fuel : Nat} {d : Int} {s : TimeSlot},
      s ∈ dayLoop ms users dur fuel d →
      ∃ e, d ≤ e ∧ e < d + fuel ∧ weekday e < 5 ∧
        s ∈ find_daily_availability ms users e dur := by
  intro fuel
  induction fuel with
  | zero =>
    intro d s h
    simp [dayLoop] at h
  | succ n ih =>
    intro d s h
    rw [dayLoop] at h
    rcases List.mem_append.mp h with h' | h'
    · split at h'
      · simp at h'
      · rename_i hwk
        exact ⟨d, le_refl _, by omega, by omega, h'⟩
    · rcases ih h' with ⟨e, he1, he2, he3, he4⟩
      exact ⟨e, by omega, by omega, he3, he4⟩

/-- Every window comes from a non-weekend day inside the requested range. -/
theorem mem_windowsFromDay {ms : List Meeting} {users : List User}
    {dur d endDay : Int} {s : TimeSlot}
    (h : s ∈ windowsFromDay ms users dur d endDay) :
    ∃ e, d ≤ e ∧ e ≤ endDay ∧ weekday e < 5 ∧
      s ∈ find_daily_availability ms users e dur := by
  unfold windowsFromDay at h
  rcases mem_dayLoop h with ⟨e, he1, he2, he3, he4⟩
  exact ⟨e, he1, by omega, he3, he4⟩

theorem foldl_commonWindow_fst_mono (date : Int) :
    ∀ (users : List User) (acc : Option Int × Option Int) (c : Int),
      acc.1 = some c →
      ∃ c', (users.foldl (commonWindowStep date) acc).1 = some c' ∧ c ≤ c' := by
  intro users
  induction users with
  | nil =>
    intro acc c hc
    exact ⟨c, hc, le_refl _⟩
  | cons v vs ih =>
    intro acc c hc
    have hstep : (commonWindowStep date acc v).1 =
        some (if c < workingStartUtc v date then workingStartUtc v date else c) := by
      simp [commonWindowStep, hc]
      split <;> rfl
    rcases ih (commonWindowStep date acc v) _ hstep with ⟨c', hc', hle⟩
    refine ⟨c', hc', ?_⟩
    split at hle <;> omega

theorem foldl_commonWindow_snd_mono (date : Int) :
    ∀ (users : List User) (acc : Option Int × Option Int) (c : Int),
      acc.2 = some c →
      ∃ c', (users.foldl (commonWindowStep date) acc).2 = some c' ∧ c' ≤ c := by
  intro users
  induction users with
  | nil =>
    intro acc c hc
    exact ⟨c, hc, le_refl _⟩
  | cons v vs ih =>
    intro acc c hc
    have hstep : (commonWindowStep date acc v).2 =
        some (if workingEndUtc v date < c then workingEndUtc v date else c) := by
      simp [commonWindowStep, hc]
      split <;> rfl
    rcases ih (commonWindowStep date acc v) _ hstep with ⟨c', hc', hle⟩
    refine ⟨c', hc', ?_⟩
    split at hle <;> omega

theorem foldl_commonWindow_fst_le (date : Int) :
    ∀ (users : List User) (acc : Option Int × Option Int) (u : User),
      u ∈ users →
      ∀ cs, (users.foldl (commonWindowStep date) acc).1 = some cs →
        workingStartUtc u date ≤ cs := by
  intro users
  induction users with
  | nil =>
    intro acc u hu
    simp at hu
  | cons v vs ih =>
    intro acc u hu cs hcs
    rcases List.mem_cons.mp hu with rfl | hu'
    · have hstep : ∃ m, (commonWindowStep date acc u).1 = some m ∧
          workingStartUtc u date ≤ m := by
        rcases h1 : acc.1 with _ | c
        · exact ⟨workingStartUtc u date, by simp [commonWindowStep, h1], le_refl _⟩
        · refine ⟨if c < workingStartUtc u date then workingStartUtc u date else c,
            by simp [commonWindowStep, h1]; split <;> rfl, ?_⟩
          split <;> omega
      rcases hstep with ⟨m, hm, hum⟩
      rcases foldl_commonWindow_fst_mono date vs _ _ hm with ⟨c', hc', hle⟩
      rw [List.foldl_cons] at hcs
      rw [hcs] at hc'
      cases hc'
      omega
    · exact ih _ u hu' cs (by rw [List.foldl_cons] at hcs; exact hcs)

theorem foldl_commonWindow_snd_ge (date : Int) :
    ∀ (users : List User) (acc : Option Int × Option Int) (u : User),
      u ∈ users →
      ∀ ce, (users.foldl (commonWindowStep date) acc).2 = some ce →
        ce ≤ workingEndUtc u date := by
  intro users
  induction users with
  | nil =>
    intro acc u hu
    simp at hu
  | cons v vs ih =>
    intro acc u hu ce hce
    rcases List.mem_cons.mp hu with rfl | hu'
    · have hstep : ∃ m, (commonWindowStep date acc u).2 = some m ∧
          m ≤ workingEndUtc u date := by
        rcases h1 : acc.2 with _ | c
        · exact ⟨workingEndUtc u date, by simp [commonWindowStep, h1], le_refl _⟩
        · refine ⟨if workingEndUtc u date < c then workingEndUtc u date else c,
            by simp [commonWindowStep, h1]; split <;> rfl, ?_⟩
          split <;> omega
      rcases hstep with ⟨m, hm, hum⟩
      rcases foldl_commonWindow_snd_mono date vs _ _ hm with ⟨c', hc', hle⟩
      rw [List.foldl_cons] at hce
      rw [hce] at hc'
      cases hc'
      omega
    · exact ih _ u hu' ce (by rw [List.foldl_cons] at hce; exact hce)

/-- The intersection window computed by `_find_daily_availability` lies inside
every participant's UTC working-hour interval for that date. -/
theorem commonWindow_bounds {users : List User} {date cs ce : Int}
    (h : commonWindow users date = (some cs, some ce)) :
    ∀ u ∈ users, workingStartUtc u date ≤ cs ∧ ce ≤ workingEndUtc u date := by
  intro u hu
  unfold commonWindow at h
  constructor
  · exact foldl_commonWindow_fst_le date users (none, none) u hu cs
      (by rw [h])
  · exact foldl_commonWindow_snd_ge date users (none, none) u hu ce
      (by rw [h])

theorem insertionSort_eq_nil_iff {α : Type} {r : α → α → Prop} [DecidableRel r]
    {l : List α} : l.insertionSort r = [] ↔ l = [] := by
  constructor
  · intro h
    have := List.length_insertionSort r l
    rw [h] at this
    exact List.length_eq_zero.mp this.symm
  · intro h
    rw [h]
    rfl

/-- An empty `get_user_meetings` answer means no booked meeting of the user
overlaps the queried interval. -/
theorem get_user_meetings_eq_nil {ms : List Meeting} {uid : Nat}
    {s e : Int} (h : get_user_meetings ms uid s e = []) :
    ∀ m ∈ ms, uid ∈ m.participants → m.end_time ≤ s ∨ e ≤ m.start_time := by
  intro m hm hp
  unfold get_user_meetings at h
  have hf := List.filter_eq_nil_iff.mp (insertionSort_eq_nil_iff.mp h) m hm
  simp only [List.contains, List.elem_eq_mem, Bool.and_eq_true_iff,
    Bool.not_eq_true', decide_eq_false_iff_not, decide_eq_true_eq, not_and,
    not_not] at hf
  by_cases h1 : m.end_time ≤ s
  · exact Or.inl h1
  · by_cases h2 : e ≤ m.start_time
    · exact Or.inr h2
    · exact absurd (hf ⟨hp, h1⟩) (by omega)

/-- What a passing per-user availability check guarantees. -/
theorem user_available_at_spec {ms : List Meeting} {u : User} {t dur : Int}
    (h : user_available_at ms u t dur = true) :
    (∀ m ∈ ms, u.user_id ∈ m.participants →
      m.end_time ≤ t ∨ t + dur ≤ m.start_time) ∧
    (∀ lunchStart lunchEnd,
      u.preferences.lunch_break_start = some lunchStart →
      u.preferences.lunch_break_end = some lunchEnd →
      ¬(localClock u.preferences.time_zone t < lunchEnd ∧
        lunchStart < localClock u.preferences.time_zone (t + dur))) := by
  unfold user_available_at at h
  rcases Bool.and_eq_true_iff.mp h with ⟨h1, h2⟩
  constructor
  · exact get_user_meetings_eq_nil (List.isEmpty_iff.mp h1)
  · intro lunchStart lunchEnd hls hle
    rw [hls, hle] at h2
    simp only [Bool.not_eq_true', Bool.and_eq_false_iff,
      decide_eq_false_iff_not, not_lt] at h2
    rcases h2 with h2 | h2 <;> omega

/-- A passing group availability check passes for every user. -/
theorem check_availability_spec {ms : List Meeting} {users : List User}
    {t dur : Int} (h : check_availability_at_time ms users t dur = true) :
    ∀ u ∈ users, user_available_at ms u t dur = true := by
  unfold check_availability_at_time at h
  exact fun u hu => List.all_eq_true.mp h u hu

theorem mem_enumFrom_snd {α : Type} :
    ∀ {l : List α} {n : Nat} {p : Nat × α}, p ∈ l.enumFrom n → p.2 ∈ l := by
  intro l
  induction l with
  | nil =>
    intro n p h
    simp [List.enumFrom] at h
  | cons a l ih =>
    intro n p h
    rw [List.enumFrom] at h
    rcases List.mem_cons.mp h with rfl | h'
    · exact List.mem_cons_self _ _
    · exact List.mem_cons_of_mem _ (ih h')

/-- Every slot a caller receives is a scored copy of an availability window,
its score fields computed by the four scoring functions on that window, and
the participant list resolved non-empty. -/
theorem mem_resultSlots {env : Env} {participants : List Nat} {dur : Int}
    {startDate endDate : Int} {preferences : Option (List (Nat × Int))}
    {o : OptimalSlot}
    (h : o ∈ resultSlots env participants dur startDate endDate preferences) :
    get_participant_data env participants ≠ [] ∧
    ∃ w ∈ find_availability_windows (load_meetings env.cal)
        (get_participant_data env participants) dur startDate endDate,
      o.time_slot = w ∧
      o.productivity_score =
        calculate_productivity_score w (get_participant_data env participants) ∧
      o.convenience_score =
        calculate_convenience_score w (get_participant_data env participants) ∧
      o.conflict_risk_score =
        calculate_conflict_risk_score (load_meetings env.cal) w
          (get_participant_data env participants) ∧
      o.preference_score =
        calculate_preference_score w (get_participant_data env participants) ∧
      o.overall_score =
        (calculate_slot_score (load_meetings env.cal) w
          (get_participant_data env participants)).overall_score := by
  simp only [resultSlots, find_optimal_slots] at h
  by_cases hu : (get_participant_data env participants).isEmpty = true
  · rw [if_pos hu] at h
    simp [Except.toOption] at h
  · rw [if_neg hu] at h
    refine ⟨fun hnil => hu (by rw [hnil]; rfl), ?_⟩
    by_cases hw : (find_availability_windows (load_meetings env.cal)
        (get_participant_data env participants) dur startDate endDate).isEmpty = true
    · rw [if_pos hw] at h
      simp [Except.toOption] at h
    · rw [if_neg hw] at h
      simp only [Except.toOption, Option.getD] at h
      have h' := List.mem_of_mem_take h
      simp only [rankedSlots, List.enum] at h'
      rcases List.mem_map.mp h' with ⟨p, hp, rfl⟩
      have hsnd := mem_enumFrom_snd hp
      have hsc : p.2 ∈ scoredSlots (load_meetings env.cal)
          (get_participant_data env participants) dur startDate endDate :=
        (List.mem_insertionSort scoreDescending).mp hsnd
      simp only [scoredSlots] at hsc
      rcases List.mem_map.mp hsc with ⟨w, hwmem, hweq⟩
      refine ⟨w, hwmem, ?_, ?_, ?_, ?_, ?_, ?_⟩ <;>
        simp [← hweq, scoreSlot, calculate_slot_score]

/-! Claim theorems. -/

/-- C1: for every slot in the list returned by `find_optimal_slots` (under a
successful calendar read), the slot's end minus start equals the requested
duration exactly; for the (non-weekend, in-range) date the slot was generated
on, the interval `[start, end)` lies within the UTC working-hour interval of
every resolved participant (hence within their intersection); and no resolved
participant has a booked meeting overlapping `[start, end)` or a configured
lunch break overlapping the slot in that participant's local time. -/
theorem claim_C1_returned_slot_invariants
    (env : Env) (participants : List Nat) (dur : Int)
    (startDate endDate : Int) (preferences : Option (List (Nat × Int)))
    (ms : List Meeting) (hread : env.cal.readResult = .ok ms) :
    ∀ o ∈ resultSlots env participants dur startDate endDate preferences,
      o.time_slot.end_time - o.time_slot.start_time = dur ∧
      (∃ d, startDate.fdiv 1440 ≤ d ∧ d ≤ endDate.fdiv 1440 ∧ weekday d < 5 ∧
        ∀ u ∈ get_participant_data env participants,
          workingStartUtc u d ≤ o.time_slot.start_time ∧
          o.time_slot.end_time ≤ workingEndUtc u d) ∧
      (∀ u ∈ get_participant_data env participants,
        (∀ m ∈ ms, u.user_id ∈ m.participants →
          m.end_time ≤ o.time_slot.start_time ∨
          o.time_slot.end_time ≤ m.start_time) ∧
        (∀ lunchStart lunchEnd,
          u.preferences.lunch_break_start = some lunchStart →
          u.preferences.lunch_break_end = some lunchEnd →
          ¬(localClock u.preferences.time_zone o.time_slot.start_time < lunchEnd ∧
            lunchStart < localClock u.preferences.time_zone o.time_slot.end_time))) := by
  intro o ho
  obtain ⟨hne, w, hwmem, hts, -, -, -, -, -⟩ := mem_resultSlots ho
  have hms : load_meetings env.cal = ms := by
    unfold load_meetings
    rw [hread]
  rw [hms] at hwmem
  unfold find_availability_windows at hwmem
  obtain ⟨d, hd1, hd2, hd3, hdaily⟩ := mem_windowsFromDay hwmem
  obtain ⟨cs, ce, hcw, hcsce, t, htc, hcheck, hw⟩ :=
    mem_find_daily_availability hdaily
  have hstart : o.time_slot.start_time = t := by rw [hts, hw]; rfl
  have hend : o.time_slot.end_time = t + dur := by rw [hts, hw]; rfl
  have hrange := mem_candidate_starts htc
  refine ⟨by omega, ⟨d, hd1, hd2, hd3, ?_⟩, ?_⟩
  · intro u hu
    have hb := commonWindow_bounds hcw u hu
    constructor
    · omega
    · omega
  · intro u hu
    have hav := check_availability_spec hcheck u hu
    have hspec := user_available_at_spec hav
    constructor
    · intro m hm hp
      have := hspec.1 m hm hp
      omega
    · intro lunchStart lunchEnd hls hle
      have := hspec.2 lunchStart lunchEnd hls hle
      rw [hstart, hend]
      exact this

theorem avg_map_le {users : List User} {f : User → ℚ} {a : ℚ}
    (hne : users ≠ []) (h : ∀ u ∈ users, f u ≤ a) :
    (users.map f).sum / (users.length : ℚ) ≤ a := by
  have hlen : 0 < (users.length : ℚ) := by
    have : 0 < users.length := List.length_pos.mpr hne
    exact_mod_cast this
  rw [div_le_iff₀ hlen]
  have hb : ∀ x ∈ users.map f, x ≤ a := by
    intro x hx
    rcases List.mem_map.mp hx with ⟨u, hu, rfl⟩
    exact h u hu
  have := List.sum_le_card_nsmul (users.map f) a hb
  rw [nsmul_eq_mul, List.length_map, mul_comm] at this
  exact this

theorem le_avg_map {users : List User} {f : User → ℚ} {a : ℚ}
    (hne : users ≠ []) (h : ∀ u ∈ users, a ≤ f u) :
    a ≤ (users.map f).sum / (users.length : ℚ) := by
  have hlen : 0 < (users.length : ℚ) := by
    have : 0 < users.length := List.length_pos.mpr hne
    exact_mod_cast this
  rw [le_div_iff₀ hlen]
  have hb : ∀ x ∈ users.map f, a ≤ x := by
    intro x hx
    rcases List.mem_map.mp hx with ⟨u, hu, rfl⟩
    exact h u hu
  have := List.card_nsmul_le_sum (users.map f) a hb
  rw [nsmul_eq_mul, List.length_map, mul_comm] at this
  exact this

theorem foldl_productivityStep_ge (hour : Int) :
    ∀ (ps : List ProductivityPeriod) (init : ℚ), 5 ≤ init →
      5 ≤ ps.foldl (productivityStep hour) init := by
  intro ps
  induction ps with
  | nil => exact fun init h => h
  | cons p ps ih =>
    intro init h
    apply ih
    cases p <;> simp only [productivityStep] <;> split
    all_goals first | exact h | norm_num

/-- Each participant's productivity score is at least the base 5.0. -/
theorem productivityUserScore_ge (u : User) (t : Int) :
    5 ≤ productivityUserScore u t :=
  foldl_productivityStep_ge _ _ _ (by norm_num)

/-- Each participant's convenience score is floored at 1.0. -/
theorem convenienceUserScore_ge (u : User) (t : Int) :
    1 ≤ convenienceUserScore u t := by
  simp only [convenienceUserScore]
  exact le_trans (by norm_num) (le_max_right _ 1.0)

theorem foldl_conflictStep_le (ms : List Meeting) (slotStart : Int) :
    ∀ (users : List User) (init : ℚ),
      users.foldl (conflictStep ms slotStart) init ≤ init := by
  intro users
  induction users with
  | nil => exact fun init => le_refl init
  | cons u us ih =>
    intro init
    refine le_trans (ih _) ?_
    simp only [conflictStep]
    split
    · exact le_refl _
    · have : 0 ≤ ((get_nearby_meetings ms u.user_id slotStart 30).length : ℚ) * 0.5 := by
        have h05 : (0.5 : ℚ) = 1 / 2 := by norm_num
        rw [h05]
        positivity
      linarith

/-- C6: for every returned slot, the reported overall score is the fixed
linear combination `0.4·productivity + 0.3·convenience + 0.2·conflict_risk +
0.1·preference`; the weights are literals in `ScoreComponents.overall_score`
and cannot be configured through the (ignored) `preferences` argument. -/
theorem claim_C6_weighted_sum (env : Env) (participants : List Nat)
    (dur : Int) (startDate endDate : Int)
    (preferences : Option (List (Nat × Int))) :
    ∀ o ∈ resultSlots env participants dur startDate endDate preferences,
      o.overall_score = 0.4 * o.productivity_score +
        0.3 * o.convenience_score + 0.2 * o.conflict_risk_score +
        0.1 * o.preference_score := by
  intro o ho
  obtain ⟨-, w, -, -, hp, hc, hr, hf, hov⟩ := mem_resultSlots ho
  rw [hov, hp, hc, hr, hf]
  unfold ScoreComponents.overall_score calculate_slot_score
  ring

/-- C8 (amended): for every returned slot, the productivity, convenience and
conflict-risk sub-scores lie in `[1, 10]` (productivity is at least 5 and
conflict-risk at most 8); the preference sub-score is at most 10 — but it is
not floored, so it can fall below 1 (see the counterexample) — and the
overall score is at most 10. -/
theorem claim_C8_amended (env : Env) (participants : List Nat) (dur : Int)
    (startDate endDate : Int) (preferences : Option (List (Nat × Int))) :
    ∀ o ∈ resultSlots env participants dur startDate endDate preferences,
      5 ≤ o.productivity_score ∧ o.productivity_score ≤ 10 ∧
      1 ≤ o.convenience_score ∧ o.convenience_score ≤ 10 ∧
      1 ≤ o.conflict_risk_score ∧ o.conflict_risk_score ≤ 8 ∧
      o.preference_score ≤ 10 ∧ o.overall_score ≤ 10 := by
  intro o ho
  obtain ⟨hne, w, -, -, hp, hc, hr, hf, hov⟩ := mem_resultSlots ho
  have hprod : 5 ≤ o.productivity_score ∧ o.productivity_score ≤ 10 := by
    rw [hp]
    unfold calculate_productivity_score
    constructor
    · exact le_min (le_avg_map hne fun u _ => productivityUserScore_ge u _)
        (by norm_num)
    · exact le_trans (min_le_right _ 10.0) (by norm_num)
  have hconv : 1 ≤ o.convenience_score ∧ o.convenience_score ≤ 10 := by
    rw [hc]
    unfold calculate_convenience_score
    constructor
    · exact le_min (le_avg_map hne fun u _ => convenienceUserScore_ge u _)
        (by norm_num)
    · exact le_trans (min_le_right _ 10.0) (by norm_num)
  have hconf : 1 ≤ o.conflict_risk_score ∧ o.conflict_risk_score ≤ 8 := by
    rw [hr]
    unfold calculate_conflict_risk_score
    constructor
    · exact le_trans (by norm_num) (le_max_right _ 1.0)
    · exact max_le (le_trans (foldl_conflictStep_le _ _ _ _) (by norm_num))
        (by norm_num)
  have hpref : o.preference_score ≤ 10 := by
    rw [hf]
    unfold calculate_preference_score
    exact le_trans (min_le_right _ 10.0) (by norm_num)
  have hovl : o.overall_score = 0.4 * o.productivity_score +
      0.3 * o.convenience_score + 0.2 * o.conflict_risk_score +
      0.1 * o.preference_score := by
    rw [hov, hp, hc, hr, hf]
    unfold ScoreComponents.overall_score calculate_slot_score
    ring
  refine ⟨hprod.1, hprod.2, hconv.1, hconv.2, hconf.1, hconf.2, hpref, ?_⟩
  rw [hovl]
  linarith [hprod.2, hconv.2, hconf.2, hpref]

/-- The sequential penalty subtraction of `_calculate_convenience_score`
equals the amended closed formula (in which the `no_meetings_after` penalty
compares the local start). -/
theorem convenienceUserScore_eq_amended (u : User) (t : Int) :
    convenienceUserScore u t = convenienceUserScoreAmended u t := by
  unfold convenienceUserScore convenienceUserScoreAmended
  rcases hb : u.preferences.no_meetings_before with _ | nmb <;>
    rcases ha : u.preferences.no_meetings_after with _ | nma <;>
      simp only [localHour] <;> split_ifs <;>
        first | (congr 1 <;> ring1) | (exfalso; omega)

/-- C5 (amended): the convenience sub-score starts from 8.0 per participant,
subtracts 1.5 per hour the local start is before 8:00 and 1.0 per hour it is
after 17:00, subtracts 3.0 when the local start precedes
`no_meetings_before`, and subtracts 3.0 when the local START (not the end, as
originally claimed) follows `no_meetings_after`; each participant's score is
floored at 1.0 before averaging and the average is capped at 10.0. -/
theorem claim_C5_amended (slot : TimeSlot) (users : List User) :
    calculate_convenience_score slot users =
      min ((users.map fun u => convenienceUserScoreAmended u slot.start_time).sum /
        (users.length : ℚ)) 10.0 := by
  unfold calculate_convenience_score
  simp only [convenienceUserScore_eq_amended]

/-- C9: when exactly one of `lunch_break_start`/`lunch_break_end` is
configured (the other absent), `_check_availability_at_time` skips the lunch
check entirely for that participant: the per-user availability degenerates to
the booked-meetings check, so no candidate slot can be disqualified by the
partially configured lunch break. -/
theorem claim_C9_partial_lunch_skipped (ms : List Meeting) (u : User)
    (startTime dur : Int)
    (h : u.preferences.lunch_break_start = none ∨
      u.preferences.lunch_break_end = none) :
    user_available_at ms u startTime dur =
      (get_user_meetings ms u.user_id startTime (startTime + dur)).isEmpty := by
  unfold user_available_at
  rcases hs : u.preferences.lunch_break_start with _ | ls <;>
    rcases he : u.preferences.lunch_break_end with _ | lb <;>
      simp_all

theorem foldl_preferenceStep (t : Int) :
    ∀ (blocks : List (List Char)) (init : ℚ),
      blocks.foldl (preferenceStep t) init =
        init - 2 * ((blocks.filter fun b =>
          containsFriday b && (weekday (t.fdiv 1440) == 4)).length : ℚ) := by
  intro blocks
  induction blocks with
  | nil =>
    intro init
    simp
  | cons b bs ih =>
    intro init
    rw [List.foldl_cons, ih, List.filter_cons]
    simp only [preferenceStep]
    by_cases hc : (containsFriday b && (weekday (t.fdiv 1440) == 4)) = true
    · rw [if_pos hc, if_pos hc, List.length_cons]
      push_cast
      ring
    · rw [if_neg hc, if_neg hc]

/-- Closed formula for the per-user preference score: 8.0 minus 2.0 per
meeting-free block mentioning `"Friday"`, counted only when the UTC start
falls on a Friday. -/
theorem preferenceUserScore_formula (u : User) (t : Int) :
    preferenceUserScore u t =
      8.0 - 2 * ((u.preferences.meeting_free_blocks.filter fun b =>
        containsFriday b && (weekday (t.fdiv 1440) == 4)).length : ℚ) :=
  foldl_preferenceStep t u.preferences.meeting_free_blocks 8.0

/-- C10: the Friday penalty in the preference sub-score fires exactly when the
slot's UTC start instant falls on a Friday and some meeting-free block
contains `"Friday"`; the participant's timezone (hence their local weekday)
is never consulted: replacing it changes nothing, so a slot that is Friday
locally but Thursday or Saturday in UTC receives no penalty. -/
theorem claim_C10_friday_penalty_is_utc (u : User) (t : Int) :
    (preferenceUserScore u t ≠ 8 ↔
      (weekday (t.fdiv 1440) = 4 ∧
        ∃ b ∈ u.preferences.meeting_free_blocks, containsFriday b = true)) ∧
    (∀ tz : Timezone,
      preferenceUserScore ⟨u.user_id, { u.preferences with time_zone := tz }⟩ t =
        preferenceUserScore u t) := by
  constructor
  · rw [preferenceUserScore_formula, show (8.0 : ℚ) = 8 from by norm_num]
    by_cases hw : weekday (t.fdiv 1440) = 4
    · have hcond : (fun b => containsFriday b && (weekday (t.fdiv 1440) == 4)) =
          fun b => containsFriday b := by
        funext b
        simp [hw]
      rw [hcond]
      constructor
      · intro hne
        refine ⟨hw, ?_⟩
        by_contra hno
        push_neg at hno
        have hnil : u.preferences.meeting_free_blocks.filter containsFriday = [] :=
          List.filter_eq_nil_iff.mpr fun b hb => by
            simp [hno b hb]
        rw [show (u.preferences.meeting_free_blocks.filter fun b =>
            containsFriday b) = u.preferences.meeting_free_blocks.filter
            containsFriday from rfl, hnil] at hne
        simp at hne
      · rintro ⟨-, b, hb, hfb⟩
        have hmem : b ∈ u.preferences.meeting_free_blocks.filter
            (fun b => containsFriday b) := List.mem_filter.mpr ⟨hb, hfb⟩
        have hpos : 0 < (u.preferences.meeting_free_blocks.filter
            (fun b => containsFriday b)).length := List.length_pos.mpr
          fun hnil => by rw [hnil] at hmem; simp at hmem
        have hcast : (1 : ℚ) ≤ ((u.preferences.meeting_free_blocks.filter
            (fun b => containsFriday b)).length : ℚ) := by
          exact_mod_cast hpos
        intro heq
        linarith
    · have hcond : (fun b => containsFriday b && (weekday (t.fdiv 1440) == 4)) =
          fun _ : List Char => false := by
        funext b
        simp [hw]
      rw [hcond]
      constructor
      · intro hne
        rw [List.filter_false] at hne
        simp at hne
      · rintro ⟨hw', -⟩
        exact absurd hw' hw
  · intro tz
    rfl

/-- C3 (amended): the only condition rejected before the window search is an
empty (or fully unresolvable) participant list — the call fails exactly when
no participant resolves.  A non-positive duration is not validated and
proceeds into the window search (see the counterexample, where a duration of
0 produces candidate slots), and an inverted date range is not rejected
either: it makes the day loop run zero iterations and the call return an
empty successful result. -/
theorem claim_C3_validation_amended (env : Env) (participants : List Nat)
    (dur : Int) (startDate endDate : Int)
    (preferences : Option (List (Nat × Int))) :
    ((∃ e, find_optimal_slots env participants dur startDate endDate
        preferences = .error e) ↔
      get_participant_data env participants = []) ∧
    (endDate.fdiv 1440 < startDate.fdiv 1440 →
      get_participant_data env participants ≠ [] →
      find_optimal_slots env participants dur startDate endDate preferences =
        .ok []) := by
  constructor
  · constructor
    · rintro ⟨e, he⟩
      simp only [find_optimal_slots] at he
      by_cases hu : (get_participant_data env participants).isEmpty = true
      · exact List.isEmpty_iff.mp hu
      · rw [if_neg hu] at he
        split at he <;> simp at he
    · intro hnil
      simp only [find_optimal_slots]
      rw [if_pos (by rw [hnil]; rfl)]
      exact ⟨_, rfl⟩
  · intro hinv hne
    simp only [find_optimal_slots]
    rw [if_neg (by simpa [List.isEmpty_iff] using hne)]
    have hwin : find_availability_windows (load_meetings env.cal)
        (get_participant_data env participants) dur startDate endDate = [] := by
      unfold find_availability_windows
      rw [windowsFromDay_unfold, if_neg (by omega)]
    rw [hwin]
    rfl

/-- C4 (amended): on a calendar read failure (storage unavailable or a
malformed record), `load_meetings` substitutes the empty meeting list, and
the whole `find_optimal_slots` call behaves exactly as if the store held no
meetings — the call does not fail, and its results are computed against the
default empty booking list. -/
theorem claim_C4_read_failure_amended (env : Env) (e : String)
    (h : env.cal.readResult = .error e) (participants : List Nat) (dur : Int)
    (startDate endDate : Int) (preferences : Option (List (Nat × Int))) :
    load_meetings env.cal = [] ∧
    find_optimal_slots env participants dur startDate endDate preferences =
      find_optimal_slots { env with cal := ⟨Except.ok []⟩ } participants dur
        startDate endDate preferences := by
  have hl : load_meetings env.cal = [] := by
    unfold load_meetings
    rw [h]
  refine ⟨hl, ?_⟩
  simp only [find_optimal_slots]
  rw [hl]
  rfl

/-- C7: on a date whose working-hour intersection `[cs, ce)` is non-empty, a
requested duration equal to the window length makes the 30-minute stepping
produce exactly the one candidate start `cs` (so the day contributes at most
one slot after conflict filtering), and a duration exceeding the window
produces no candidate at all for that date. -/
theorem claim_C7_boundary_duration (ms : List Meeting) (users : List User)
    (date dur cs ce : Int)
    (hw : commonWindow users date = (some cs, some ce)) (hlt : cs < ce) :
    (dur = ce - cs →
      candidate_starts cs ce dur = [cs] ∧
      (find_daily_availability ms users date dur).length ≤ 1) ∧
    (ce - cs < dur → find_daily_availability ms users date dur = []) := by
  have hdaily : find_daily_availability ms users date dur =
      ((candidate_starts cs ce dur).filter fun t =>
        check_availability_at_time ms users t dur).map
        fun t => slotFor users t dur := by
    unfold find_daily_availability
    rw [hw]
    dsimp only
    rw [if_neg (by omega)]
  constructor
  · intro hdur
    have hcs : candidate_starts cs ce dur = [cs] := by
      rw [candidate_starts_unfold, if_pos (by omega),
        candidate_starts_unfold, if_neg (by omega)]
    refine ⟨hcs, ?_⟩
    rw [hdaily, hcs, List.length_map]
    exact le_trans (List.length_filter_le _ _) (by simp)
  · intro hgt
    have hcs : candidate_starts cs ce dur = [] := by
      rw [candidate_starts_unfold, if_neg (by omega)]
    rw [hdaily, hcs]
    rfl

theorem pairwise_enumFrom_snd {α : Type} {R : α → α → Prop} :
    ∀ {l : List α} (n : Nat), l.Pairwise R →
      (l.enumFrom n).Pairwise fun p q => R p.2 q.2 := by
  intro l
  induction l with
  | nil =>
    intro n _
    exact List.Pairwise.nil
  | cons a l ih =>
    intro n h
    rcases List.pairwise_cons.mp h with ⟨ha, hl⟩
    rw [List.enumFrom]
    refine List.pairwise_cons.mpr ⟨?_, ih (n + 1) hl⟩
    intro q hq
    exact ha q.2 (mem_enumFrom_snd hq)

theorem pairwise_of_forall_mem {α : Type} {R : α → α → Prop} :
    ∀ {l : List α}, (∀ a ∈ l, ∀ b ∈ l, R a b) → l.Pairwise R := by
  intro l
  induction l with
  | nil =>
    intro _
    exact List.Pairwise.nil
  | cons a l ih =>
    intro h
    refine List.pairwise_cons.mpr ⟨?_, ?_⟩
    · intro b hb
      exact h a (List.mem_cons_self _ _) b (List.mem_cons_of_mem _ hb)
    · exact ih fun x hx y hy =>
        h x (List.mem_cons_of_mem _ hx) y (List.mem_cons_of_mem _ hy)

/-- When the result is non-empty, it is the first five of the
rank-annotated sorted list. -/
theorem resultSlots_eq_take (env : Env) (participants : List Nat) (dur : Int)
    (startDate endDate : Int) (preferences : Option (List (Nat × Int)))
    (hne : resultSlots env participants dur startDate endDate preferences ≠ []) :
    resultSlots env participants dur startDate endDate preferences =
      (rankedSlots (load_meetings env.cal)
        (get_participant_data env participants) dur startDate endDate).take 5 := by
  simp only [resultSlots, find_optimal_slots] at hne ⊢
  by_cases hu : (get_participant_data env participants).isEmpty = true
  · rw [if_pos hu] at hne
    simp [Except.toOption] at hne
  · rw [if_neg hu] at hne ⊢
    by_cases hw : (find_availability_windows (load_meetings env.cal)
        (get_participant_data env participants) dur startDate endDate).isEmpty = true
    · rw [if_pos hw] at hne
      simp only [Except.toOption, Option.getD] at hne
      exact absurd rfl hne
    · rw [if_neg hw]
      rfl

/-- C2: for every call with a non-empty result, the returned ranks are the
contiguous sequence `1..N` in order (the i-th slot carries rank `i + 1`),
`N = min(5, number of scored candidates)`, the returned list is sorted by
overall score in non-increasing order, and the sort is stable: for every
score value, the sorted list lists the slots of that score exactly in their
chronological discovery order from the scored list. -/
theorem claim_C2_ranking_contract (env : Env) (participants : List Nat)
    (dur : Int) (startDate endDate : Int)
    (preferences : Option (List (Nat × Int)))
    (hne : resultSlots env participants dur startDate endDate preferences ≠ []) :
    (∀ i (hi : i < (resultSlots env participants dur startDate endDate
        preferences).length),
      ((resultSlots env participants dur startDate endDate preferences).get
        ⟨i, hi⟩).rank = i + 1) ∧
    (resultSlots env participants dur startDate endDate preferences).length =
      min 5 (scoredSlots (load_meetings env.cal)
        (get_participant_data env participants) dur startDate endDate).length ∧
    List.Pairwise (fun a b => b.overall_score ≤ a.overall_score)
      (resultSlots env participants dur startDate endDate preferences) ∧
    (∀ q : ℚ,
      (sortedSlots (load_meetings env.cal)
          (get_participant_data env participants) dur startDate
          endDate).filter (fun o => o.overall_score == q) =
        (scoredSlots (load_meetings env.cal)
          (get_participant_data env participants) dur startDate
          endDate).filter fun o => o.overall_score == q) := by
  have hres := resultSlots_eq_take env participants dur startDate endDate
    preferences hne
  refine ⟨?_, ?_, ?_, ?_⟩
  · intro i hi
    simp [List.get_eq_getElem, hres, rankedSlots, List.enum,
      List.getElem_take, List.getElem_map, List.getElem_enumFrom]
  · rw [hres]
    simp [rankedSlots, sortedSlots, List.length_take]
  · rw [hres]
    refine List.Pairwise.sublist (List.take_sublist 5 _) ?_
    simp only [rankedSlots, List.enum]
    rw [List.pairwise_map]
    have hsorted : List.Pairwise scoreDescending
        (sortedSlots (load_meetings env.cal)
          (get_participant_data env participants) dur startDate endDate) :=
      List.sorted_insertionSort scoreDescending _
    exact (pairwise_enumFrom_snd 0 hsorted).imp fun h => h
  · intro q
    have hpw : ((scoredSlots (load_meetings env.cal)
        (get_participant_data env participants) dur startDate endDate).filter
          (fun o => o.overall_score == q)).Pairwise scoreDescending := by
      refine pairwise_of_forall_mem fun a ha b hb => ?_
      have ha' := (List.mem_filter.mp ha).2
      have hb' := (List.mem_filter.mp hb).2
      have haq : a.overall_score = q := by simpa using ha'
      have hbq : b.overall_score = q := by simpa using hb'
      unfold scoreDescending
      rw [haq, hbq]
    have hsub : List.Sublist
        ((scoredSlots (load_meetings env.cal)
          (get_participant_data env participants) dur startDate endDate).filter
            fun o => o.overall_score == q)
        (sortedSlots (load_meetings env.cal)
          (get_participant_data env participants) dur startDate endDate) :=
      List.sublist_insertionSort hpw (List.filter_sublist _)
    have hself : ((scoredSlots (load_meetings env.cal)
        (get_participant_data env participants) dur startDate endDate).filter
          (fun o => o.overall_score == q)).filter
          (fun o => o.overall_score == q) =
        (scoredSlots (load_meetings env.cal)
          (get_participant_data env participants) dur startDate endDate).filter
          (fun o => o.overall_score == q) :=
      List.filter_eq_self.mpr fun a ha => (List.mem_filter.mp ha).2
    have hsubf := List.Sublist.filter (fun o => o.overall_score == q) hsub
    rw [hself] at hsubf
    have hperm : List.Perm
        (sortedSlots (load_meetings env.cal)
          (get_participant_data env participants) dur startDate endDate)
        (scoredSlots (load_meetings env.cal)
          (get_participant_data env participants) dur startDate endDate) :=
      List.perm_insertionSort scoreDescending _
    have hlen := (hperm.filter (fun o => o.overall_score == q)).length_eq
    exact (List.Sublist.eq_of_length hsubf hlen.symm).symm

/-! Concrete witnesses and counterexamples.  The arithmetic of `Rat` is made
locally transparent so that the kernel-checked `decide` evaluations can run
the whole engine on the concrete environments above. -/

section

attribute [local semireducible] Rat.add Rat.mul Rat.sub Rat.inv Rat.ofScientific

/-- Witness for C1: at `baseEnv` the read succeeds with an empty meetings
file, the call returns exactly one slot, and the invariants hold for it. -/
theorem claim_C1_witness :
    baseEnv.cal.readResult = Except.ok [] ∧
    (resultSlots baseEnv [0] 480 5760 5760 none).length = 1 ∧
    (∀ o ∈ resultSlots baseEnv [0] 480 5760 5760 none,
      o.time_slot.end_time - o.time_slot.start_time = 480 ∧
      (∃ d, (5760 : Int).fdiv 1440 ≤ d ∧ d ≤ (5760 : Int).fdiv 1440 ∧
        weekday d < 5 ∧
        ∀ u ∈ get_participant_data baseEnv [0],
          workingStartUtc u d ≤ o.time_slot.start_time ∧
          o.time_slot.end_time ≤ workingEndUtc u d) ∧
      (∀ u ∈ get_participant_data baseEnv [0],
        (∀ m ∈ ([] : List Meeting), u.user_id ∈ m.participants →
          m.end_time ≤ o.time_slot.start_time ∨
          o.time_slot.end_time ≤ m.start_time) ∧
        (∀ lunchStart lunchEnd,
          u.preferences.lunch_break_start = some lunchStart →
          u.preferences.lunch_break_end = some lunchEnd →
          ¬(localClock u.preferences.time_zone o.time_slot.start_time <
              lunchEnd ∧
            lunchStart <
              localClock u.preferences.time_zone o.time_slot.end_time)))) :=
  ⟨rfl, by decide,
    claim_C1_returned_slot_invariants baseEnv [0] 480 5760 5760 none [] rfl⟩

/-- Witness for C2: at `baseEnv` with a 30-minute duration the result is
non-empty (five slots) and the ranking contract holds. -/
theorem claim_C2_witness :
    resultSlots baseEnv [0] 30 5760 5760 none ≠ [] ∧
    ((∀ i (hi : i < (resultSlots baseEnv [0] 30 5760 5760 none).length),
      ((resultSlots baseEnv [0] 30 5760 5760 none).get ⟨i, hi⟩).rank = i + 1) ∧
    (resultSlots baseEnv [0] 30 5760 5760 none).length =
      min 5 (scoredSlots (load_meetings baseEnv.cal)
        (get_participant_data baseEnv [0]) 30 5760 5760).length ∧
    List.Pairwise (fun a b => b.overall_score ≤ a.overall_score)
      (resultSlots baseEnv [0] 30 5760 5760 none) ∧
    (∀ q : ℚ,
      (sortedSlots (load_meetings baseEnv.cal)
          (get_participant_data baseEnv [0]) 30 5760 5760).filter
          (fun o => o.overall_score == q) =
        (scoredSlots (load_meetings baseEnv.cal)
          (get_participant_data baseEnv [0]) 30 5760 5760).filter
          fun o => o.overall_score == q)) :=
  ⟨by decide, claim_C2_ranking_contract baseEnv [0] 30 5760 5760 none
    (by decide)⟩

/-- Counterexample to C3 as stated: a duration of 0 is non-positive, yet the
call is not rejected as a validation failure — the window search runs and
the call succeeds with five zero-length slots. -/
theorem claim_C3_counterexample :
    ¬(0 < (0 : Int)) ∧
    (resultSlots baseEnv [0] 0 5760 5760 none).length = 5 :=
  ⟨by norm_num, by decide⟩

/-- Witness for the amended C3 at a concrete inverted date range: the call
succeeds with an empty result instead of failing validation. -/
theorem claim_C3_witness :
    (4320 : Int).fdiv 1440 < (5760 : Int).fdiv 1440 ∧
    get_participant_data baseEnv [0] ≠ [] ∧
    find_optimal_slots baseEnv [0] 30 5760 4320 none = .ok [] :=
  ⟨by decide,
    by
      rw [show get_participant_data baseEnv [0] = [baseUser] from rfl]
      exact List.cons_ne_nil _ _,
    (claim_C3_validation_amended baseEnv [0] 30 5760 4320 none).2 (by decide)
      (by
        rw [show get_participant_data baseEnv [0] = [baseUser] from rfl]
        exact List.cons_ne_nil _ _)⟩

/-- Counterexample to C4 as stated: with a failing calendar read the call
does not fail — it succeeds and returns five slots computed against the
substituted empty booking list. -/
theorem claim_C4_counterexample :
    failingReadEnv.cal.readResult = Except.error "storage unavailable" ∧
    (resultSlots failingReadEnv [0] 30 5760 5760 none).length = 5 :=
  ⟨rfl, by decide⟩

/-- Witness for the amended C4 at the concrete failing store. -/
theorem claim_C4_witness :
    failingReadEnv.cal.readResult = Except.error "storage unavailable" ∧
    load_meetings failingReadEnv.cal = [] ∧
    find_optimal_slots failingReadEnv [0] 30 5760 5760 none =
      find_optimal_slots { failingReadEnv with cal := ⟨Except.ok []⟩ } [0] 30
        5760 5760 none :=
  ⟨rfl,
    (claim_C4_read_failure_amended failingReadEnv "storage unavailable" rfl
      [0] 30 5760 5760 none).1,
    (claim_C4_read_failure_amended failingReadEnv "storage unavailable" rfl
      [0] 30 5760 5760 none).2⟩

/-- Counterexample to C5 as stated: for a 16:30-17:30 slot and a participant
with `no_meetings_after = 17:00`, the source computes a convenience score of
8 (it compares the local start, 16:30), while the claimed rule (comparing the
local end, 17:30) yields 5. -/
theorem claim_C5_counterexample :
    calculate_convenience_score lateSlot [lateCutoffUser] = 8 ∧
    min ((([lateCutoffUser] : List User).map fun u =>
        convenienceUserScoreClaimed u lateSlot.start_time lateSlot.end_time).sum /
        (([lateCutoffUser] : List User).length : ℚ)) 10.0 = 5 ∧
    ¬((8 : ℚ) = 5) :=
  ⟨by decide, by decide, by norm_num⟩

/-- Witness for C6: the single slot returned at `baseEnv` carries overall
score `0.4·5 + 0.3·8 + 0.2·8 + 0.1·8 = 6.8`. -/
theorem claim_C6_witness :
    baseSlot ∈ resultSlots baseEnv [0] 480 5760 5760 none ∧
    baseSlot.overall_score = 0.4 * baseSlot.productivity_score +
      0.3 * baseSlot.convenience_score + 0.2 * baseSlot.conflict_risk_score +
      0.1 * baseSlot.preference_score :=
  ⟨by decide,
    claim_C6_weighted_sum baseEnv [0] 480 5760 5760 none baseSlot (by decide)⟩

/-- Witness for C7: for `baseUser` on Monday 1970-01-05 the intersection is
`[6300, 6780)` (09:00-17:00 UTC), and the boundary facts hold for a
480-minute duration. -/
theorem claim_C7_witness :
    commonWindow [baseUser] 4 = (some 6300, some 6780) ∧
    (6300 : Int) < 6780 ∧
    ((480 = (6780 : Int) - 6300 →
      candidate_starts 6300 6780 480 = [6300] ∧
      (find_daily_availability [] [baseUser] 4 480).length ≤ 1) ∧
    ((6780 : Int) - 6300 < 480 →
      find_daily_availability [] [baseUser] 4 480 = [])) :=
  ⟨by decide, by decide,
    claim_C7_boundary_duration [] [baseUser] 4 480 6300 6780 (by decide)
      (by decide)⟩

/-- Counterexample to C8 as stated: with four `"Friday"` meeting-free blocks
and a Friday slot, the returned preference sub-score is 0, which is below
the claimed floor of 1.0. -/
theorem claim_C8_counterexample :
    (resultSlots fridayEnv [0] 480 1440 1440 none).map
      OptimalSlot.preference_score = [0] ∧
    ¬((1 : ℚ) ≤ 0) :=
  ⟨by decide, by norm_num⟩

/-- Witness for the amended C8 at the concrete returned slot of `baseEnv`. -/
theorem claim_C8_witness :
    baseSlot ∈ resultSlots baseEnv [0] 480 5760 5760 none ∧
    (5 ≤ baseSlot.productivity_score ∧ baseSlot.productivity_score ≤ 10 ∧
    1 ≤ baseSlot.convenience_score ∧ baseSlot.convenience_score ≤ 10 ∧
    1 ≤ baseSlot.conflict_risk_score ∧ baseSlot.conflict_risk_score ≤ 8 ∧
    baseSlot.preference_score ≤ 10 ∧ baseSlot.overall_score ≤ 10) :=
  ⟨by decide,
    claim_C8_amended baseEnv [0] 480 5760 5760 none baseSlot (by decide)⟩

/-- Witness for C9: a participant with only `lunch_break_start` configured is
checked for booked meetings only. -/
theorem claim_C9_witness :
    (halfLunchUser.preferences.lunch_break_start = none ∨
      halfLunchUser.preferences.lunch_break_end = none) ∧
    user_available_at [] halfLunchUser 5760 30 =
      (get_user_meetings [] halfLunchUser.user_id 5760 (5760 + 30)).isEmpty :=
  ⟨Or.inr rfl,
    claim_C9_partial_lunch_skipped [] halfLunchUser 5760 30 (Or.inr rfl)⟩

end

end MeetingAssistant
